import Mathlib

/-!
Verification of the TreeForge directory-tree scanner (src/generate_tree.py).

The script recursively walks a directory tree and emits a JSON document
describing it.  The embedding below models:

  * the filesystem seen by the walk as a rose tree (FSNode): a node is a
    file or a directory with an ordered list of children (the order in
    which iterdir enumerates them);
  * pathlib Path.suffix (pySuffix), str.lower (pyLower, ASCII range as
    relevant to the names involved), and Path.relative_to(root).as_posix()
    (renderPath applied to the list of name segments from the scan root);
  * sorted(..., key=lambda p: (not p.is_dir(), p.name.lower())) as a stable
    sort by that key.  Python sort is stable and a stable sort of a list
    by a total preorder is uniquely determined, so the stable insertion
    sort used here computes exactly the same list;
  * walk_dir (line 38-81) as walkEntries (the recursion) plus walkList
    (the loop over the sorted children of one directory), with the scan
    root threaded as the segment list pre instead of being read from the
    enclosing scope, and the "ignore = ignore or default" guard (line 51)
    as resolveIgnore;
  * the __main__ validation and call (lines 90-95) as scan, where the
    input is none when the supplied root does not exist and some node
    otherwise, and the raised ValueError is the single error value
    ScanError.invalidRoot;
  * json.dump(tree, f, indent=2, ensure_ascii=False) (line 102) as the
    pure renderer renderEntryList.
-/

/-- Result record, one per filesystem node: the dict built at lines 61-67
(path, type, children) and 73-78 (path, type, extension).  A field that the
source dict does not contain is none. -/
inductive EntryType where
  | dir
  | file
deriving DecidableEq

inductive Entry where
  | mk (path : String) (type : EntryType) (ext : Option String) (children : Option (List Entry))

def Entry.path : Entry → String
  | .mk p _ _ _ => p

def Entry.type : Entry → EntryType
  | .mk _ t _ _ => t

def Entry.extension : Entry → Option String
  | .mk _ _ x _ => x

def Entry.children : Entry → Option (List Entry)
  | .mk _ _ _ cs => cs

@[simp] theorem Entry.path_mk (p t x cs) : (Entry.mk p t x cs).path = p := rfl

@[simp] theorem Entry.type_mk (p t x cs) : (Entry.mk p t x cs).type = t := rfl

@[simp] theorem Entry.extension_mk (p t x cs) : (Entry.mk p t x cs).extension = x := rfl

@[simp] theorem Entry.children_mk (p t x cs) : (Entry.mk p t x cs).children = cs := rfl

/-- A filesystem subtree: what path.iterdir() exposes, with the children of
a directory listed in enumeration order. -/
inductive FSNode where
  | file (name : String)
  | dir (name : String) (children : List FSNode)

def fsName : FSNode → String
  | .file n => n
  | .dir n _ => n

/-- Models Path.is_dir() on a node of the modelled tree. -/
def isDirB : FSNode → Bool
  | .file _ => false
  | .dir _ _ => true

/-- Models str.lower() (line 54); Char.toLower lowercases the ASCII range. -/
def pyLower (s : String) : String := s.map Char.toLower

/-- Index of the last dot of a name, counted from the front: the value of
str.rfind applied by pathlib when computing Path.suffix. -/
def pySuffixList : List Char → Option Nat
  | [] => none
  | c :: rest =>
    match pySuffixList rest with
    | some i => some (i + 1)
    | none => if c = '.' then some 0 else none

/-- Models pathlib Path.suffix (lines 70 and 77): the final dot-suffix of
the name including the leading dot, or the empty string when the last dot
is absent, leading, or trailing. -/
def pySuffix (s : String) : String :=
  match pySuffixList s.data with
  | none => ""
  | some i => if 0 < i ∧ i + 1 < s.data.length then String.mk (s.data.drop i) else ""

/-- Models child.relative_to(root_path).as_posix() (line 58): the segments
from the scan root to the node, joined with forward slashes. -/
def renderPath : List String → String
  | [] => ""
  | [s] => s
  | s :: rest => s ++ "/" ++ renderPath rest

/-- The sort key comparison of line 54: tuples (not is_dir, name.lower())
compared lexicographically, with False before True. -/
def sortRel (a b : FSNode) : Prop :=
  (!(isDirB a)) < (!(isDirB b)) ∨
    ((!(isDirB a)) = (!(isDirB b)) ∧ pyLower (fsName a) ≤ pyLower (fsName b))

instance : DecidableRel sortRel := fun a b => by
  unfold sortRel
  infer_instance

instance : IsTotal FSNode sortRel where
  total a b := by
    unfold sortRel
    rcases lt_trichotomy (!(isDirB a)) (!(isDirB b)) with h | h | h
    · exact Or.inl (Or.inl h)
    · rcases le_total (pyLower (fsName a)) (pyLower (fsName b)) with h2 | h2
      · exact Or.inl (Or.inr ⟨h, h2⟩)
      · exact Or.inr (Or.inr ⟨h.symm, h2⟩)
    · exact Or.inr (Or.inl h)

instance : IsTrans FSNode sortRel where
  trans a b c hab hbc := by
    unfold sortRel at *
    rcases hab with h1 | ⟨e1, l1⟩
    · rcases hbc with h2 | ⟨e2, l2⟩
      · exact Or.inl (lt_trans h1 h2)
      · exact Or.inl (e2 ▸ h1)
    · rcases hbc with h2 | ⟨e2, l2⟩
      · exact Or.inl (e1 ▸ h2)
      · exact Or.inr ⟨e1.trans e2, le_trans l1 l2⟩

/-- Models sorted(path.iterdir(), key=lambda p: (not p.is_dir(), p.name.lower()))
(line 54).  Python sorted is stable, and a stable sort by a total preorder
is unique, so the stable insertion sort equals it. -/
def sortChildren (cs : List FSNode) : List FSNode := List.insertionSort sortRel cs

theorem perm_sizeOf {l₁ l₂ : List FSNode} (h : l₁.Perm l₂) : sizeOf l₁ = sizeOf l₂ := by
  induction h with
  | nil => rfl
  | cons x _ ih => simp [ih]
  | swap x y l => simp; omega
  | trans _ _ ih₁ ih₂ => omega

theorem sizeOf_sortChildren (cs : List FSNode) : sizeOf (sortChildren cs) = sizeOf cs :=
  perm_sizeOf (List.perm_insertionSort sortRel cs)

mutual

/-- The recursion of walk_dir (lines 38-81): the list of dicts produced for
one directory.  pre is the segment path of the directory relative to the
scan root (empty at the top-level call of line 95). -/
def walkEntries (ig : List String) (pre : List String) : FSNode → List Entry
  | .file _ => []
  | .dir _ cs => walkList ig pre (sortChildren cs)
termination_by nd => sizeOf nd
decreasing_by
  simp [sizeOf_sortChildren]

/-- The body of the for loop of lines 54-79, run over the sorted children:
skip a child named in the ignore set (lines 55-56); emit a dir entry and
recurse (lines 60-67); skip a .pyc file (lines 70-71); emit a file entry
(lines 73-79). -/
def walkList (ig : List String) (pre : List String) : List FSNode → List Entry
  | [] => []
  | c :: rest =>
    (if fsName c ∈ ig then []
     else if isDirB c then
       [Entry.mk (renderPath (pre ++ [fsName c])) EntryType.dir none
         (some (walkEntries ig (pre ++ [fsName c]) c))]
     else if pySuffix (fsName c) = ".pyc" then []
     else [Entry.mk (renderPath (pre ++ [fsName c])) EntryType.file
       (some (pySuffix (fsName c))) none])
    ++ walkList ig pre rest
termination_by l => sizeOf l
decreasing_by
  all_goals simp
  all_goals omega

end

/-- The default ignore set of line 51. -/
def defaultIgnore : List String := ["__pycache__", ".DS_Store"]

/-- Models the guard ignore = ignore or default of line 51: both None and an
empty set are falsy in Python, so either is replaced by the default. -/
def resolveIgnore : Option (List String) → List String
  | none => defaultIgnore
  | some l => if l.isEmpty then defaultIgnore else l

/-- walk_dir with its optional ignore argument (line 38-41); the resolved
ignore set is then used unchanged through the recursion, exactly as the
recursive calls of line 65 pass the already-resolved nonempty set. -/
def walk_dir (nd : FSNode) (ignore : Option (List String) := none) : List Entry :=
  walkEntries (resolveIgnore ignore) [] nd

/-- The failure of the root validation at lines 91-92 (the raised
ValueError: the root does not exist or is not a directory). -/
inductive ScanError where
  | invalidRoot
deriving DecidableEq

/-- Models the top-level contract of __main__ (lines 90-95): the argument is
none when the supplied path does not resolve to an existing node; a root
that exists but is not a directory also fails; otherwise walk_dir runs with
the default ignore set. -/
def scan : Option FSNode → Except ScanError (List Entry)
  | none => .error .invalidRoot
  | some nd => if isDirB nd then .ok (walk_dir nd none) else .error .invalidRoot

/-- A child survives the two filters of the loop: its bare name is not in
the ignore set (line 55) and it is not a file with suffix .pyc (line 70). -/
def keep (ig : List String) (c : FSNode) : Bool :=
  if fsName c ∈ ig then false
  else if isDirB c then true
  else if pySuffix (fsName c) = ".pyc" then false
  else true

/-- The entry emitted for one surviving child (lines 60-79). -/
def mkEnt (ig : List String) (pre : List String) (c : FSNode) : Entry :=
  if isDirB c then
    Entry.mk (renderPath (pre ++ [fsName c])) EntryType.dir none
      (some (walkEntries ig (pre ++ [fsName c]) c))
  else
    Entry.mk (renderPath (pre ++ [fsName c])) EntryType.file
      (some (pySuffix (fsName c))) none

theorem walkEntries_file (ig pre n) : walkEntries ig pre (.file n) = [] := by
  rw [walkEntries.eq_def]

theorem walkEntries_dir (ig pre n cs) :
    walkEntries ig pre (.dir n cs) = walkList ig pre (sortChildren cs) := by
  rw [walkEntries.eq_def]

theorem walkList_eq (ig pre) :
    ∀ l, walkList ig pre l = (l.filter (keep ig)).map (mkEnt ig pre) := by
  intro l
  induction l with
  | nil => rw [walkList.eq_def]; rfl
  | cons c rest ih =>
    rw [walkList.eq_def]
    by_cases h1 : fsName c ∈ ig
    · simp [h1, keep, ih]
    · by_cases h2 : isDirB c
      · simp [h1, h2, keep, mkEnt, ih]
      · by_cases h3 : pySuffix (fsName c) = ".pyc"
        · simp [h1, h2, h3, keep, ih]
        · simp [h1, h2, h3, keep, mkEnt, ih]

theorem walk_dir_eq (ig pre n cs) :
    walkEntries ig pre (.dir n cs) =
      ((sortChildren cs).filter (keep ig)).map (mkEnt ig pre) := by
  rw [walkEntries_dir, walkList_eq]

theorem mkEnt_path (ig pre c) : (mkEnt ig pre c).path = renderPath (pre ++ [fsName c]) := by
  unfold mkEnt
  split <;> rfl

theorem mkEnt_type (ig pre c) :
    (mkEnt ig pre c).type = (if isDirB c then EntryType.dir else EntryType.file) := by
  unfold mkEnt
  split <;> simp_all

theorem keep_not_ignored {ig c} (h : keep ig c = true) : fsName c ∉ ig := by
  unfold keep at h
  intro hmem
  simp [hmem] at h

/-- Structural induction over the rose tree with membership hypotheses for
the children of a directory. -/
def FSNode.recMem {motive : FSNode → Prop} (hf : ∀ n, motive (FSNode.file n))
    (hd : ∀ n cs, (∀ c ∈ cs, motive c) → motive (FSNode.dir n cs)) : ∀ t, motive t
  | .file n => hf n
  | .dir n cs => hd n cs (fun c hc => FSNode.recMem hf hd c)
termination_by t => sizeOf t
decreasing_by
  have := List.sizeOf_lt_of_mem hc
  simp
  omega

/-- Membership of the filtered sorted children comes from membership of the
original enumeration. -/
theorem mem_of_mem_filter_sort {ig : List String} {cs : List FSNode} {c : FSNode}
    (h : c ∈ (sortChildren cs).filter (keep ig)) : c ∈ cs ∧ keep ig c = true := by
  rw [List.mem_filter] at h
  exact ⟨((List.perm_insertionSort sortRel cs).mem_iff).mp h.1, h.2⟩

theorem renderPath_append (pre : List String) (nm : String) (h : pre ≠ []) :
    renderPath (pre ++ [nm]) = renderPath pre ++ "/" ++ nm := by
  induction pre with
  | nil => exact absurd rfl h
  | cons p rest ih =>
    cases rest with
    | nil => rfl
    | cons q rest2 =>
      show p ++ "/" ++ renderPath ((q :: rest2) ++ [nm]) = (p ++ "/" ++ renderPath (q :: rest2)) ++ "/" ++ nm
      rw [ih (by simp)]
      simp [String.append_assoc]

theorem string_append_cancel_left {a b c : String} (h : a ++ b = a ++ c) : b = c := by
  apply String.ext
  have h2 := congrArg String.data h
  rw [String.data_append, String.data_append] at h2
  exact List.append_cancel_left h2

theorem renderPath_last_inj (pre : List String) {a b : String}
    (h : renderPath (pre ++ [a]) = renderPath (pre ++ [b])) : a = b := by
  cases pre with
  | nil => exact h
  | cons p rest =>
    rw [renderPath_append _ _ (by simp), renderPath_append _ _ (by simp)] at h
    rw [String.append_assoc, String.append_assoc] at h
    have h2 := string_append_cancel_left h
    exact string_append_cancel_left h2

theorem slash_data : "/".data = ['/'] := rfl

theorem data_render_cons_cons (s₀ s₁ : String) (rest : List String) :
    (renderPath (s₀ :: s₁ :: rest)).data = s₀.data ++ '/' :: (renderPath (s₁ :: rest)).data := by
  show ((s₀ ++ "/") ++ renderPath (s₁ :: rest)).data = _
  rw [String.data_append, String.data_append, slash_data]
  simp

theorem string_eq_empty_of_data {s : String} (h : s.data = []) : s = "" :=
  String.ext h

theorem takeWhile_of_all {p : Char → Bool} :
    ∀ l : List Char, (∀ c ∈ l, p c = true) → l.takeWhile p = l := by
  intro l h
  induction l with
  | nil => rfl
  | cons a l ih =>
    rw [List.takeWhile_cons, h a (by simp)]
    simp [ih (fun c hc => h c (by simp [hc]))]

theorem takeWhile_append_stop {p : Char → Bool} {a : Char} (l₂ : List Char)
    (ha : p a = false) :
    ∀ l₁ : List Char, (∀ c ∈ l₁, p c = true) → (l₁ ++ a :: l₂).takeWhile p = l₁ := by
  intro l₁ h
  induction l₁ with
  | nil => simp [List.takeWhile_cons, ha]
  | cons b l ih =>
    rw [List.cons_append, List.takeWhile_cons, h b (by simp)]
    simp [ih (fun c hc => h c (by simp [hc]))]

/-- The bare filename of a node: the final segment of its rendered path. -/
def lastSeg (s : String) : String :=
  String.mk ((s.data.reverse.takeWhile (fun c => c != '/')).reverse)

theorem lastSeg_render (pre : List String) (nm : String)
    (h : nm.data.all (fun c => c != '/') = true) :
    lastSeg (renderPath (pre ++ [nm])) = nm := by
  have hall : ∀ c ∈ nm.data.reverse, (c != '/') = true := by
    intro c hc
    rw [List.mem_reverse] at hc
    exact (List.all_eq_true.mp h) c hc
  cases pre with
  | nil =>
    show lastSeg nm = nm
    unfold lastSeg
    rw [takeWhile_of_all _ hall, List.reverse_reverse]
  | cons p rest =>
    unfold lastSeg
    have hd : (renderPath ((p :: rest) ++ [nm])).data
        = (renderPath (p :: rest)).data ++ '/' :: nm.data := by
      rw [renderPath_append _ _ (by simp), String.data_append, String.data_append, slash_data]
      simp
    rw [hd, List.reverse_append, List.reverse_cons,
      List.append_assoc, List.singleton_append,
      takeWhile_append_stop _ (by decide) _ hall, List.reverse_reverse]

/-- A usable filename segment: nonempty, free of slashes, and not one of
the two special directory names. -/
def segOk (s : String) : Bool :=
  (s != "") && s.data.all (fun c => c != '/') && (s != ".") && (s != "..")

mutual

/-- Every name strictly below the node is a usable filename segment; this
is what a real directory enumeration guarantees for iterdir results. -/
def childrenOk : FSNode → Bool
  | .file _ => true
  | .dir _ cs => childrenListOk cs

def childrenListOk : List FSNode → Bool
  | [] => true
  | c :: rest => (segOk (fsName c) && childrenOk c) && childrenListOk rest

end

theorem childrenListOk_mem {cs : List FSNode} (h : childrenListOk cs = true) :
    ∀ c ∈ cs, segOk (fsName c) = true ∧ childrenOk c = true := by
  induction cs with
  | nil => intro c hc; cases hc
  | cons a l ih =>
    rw [childrenListOk] at h
    simp only [Bool.and_eq_true] at h
    intro c hc
    rcases List.mem_cons.mp hc with rfl | hc2
    · exact ⟨h.1.1, h.1.2⟩
    · exact ih h.2 c hc2

/-- Every entry of a result tree, at every depth, satisfies P. -/
inductive EntryAll (P : Entry → Prop) : Entry → Prop where
  | intro (e : Entry) (hp : P e)
      (hch : ∀ cs, e.children = some cs → ∀ c ∈ cs, EntryAll P c) : EntryAll P e

theorem EntryAll_mono {P Q : Entry → Prop} (h : ∀ e, P e → Q e) :
    ∀ {e}, EntryAll P e → EntryAll Q e := by
  intro e he
  induction he with
  | intro e hp hch ih => exact ⟨e, h e hp, fun cs hcs c hc => ih cs hcs c hc⟩

theorem empty_data : ("" : String).data = [] := rfl

theorem dot_data : ("." : String).data = ['.'] := rfl

theorem data_render_append (pre : List String) (nm : String) (h : pre ≠ []) :
    (renderPath (pre ++ [nm])).data = (renderPath pre).data ++ '/' :: nm.data := by
  rw [renderPath_append _ _ h, String.data_append, String.data_append, slash_data]
  simp

theorem segOk_spec {s : String} (h : segOk s = true) :
    s ≠ "" ∧ s.data.all (fun c => c != '/') = true ∧ s ≠ "." ∧ s ≠ ".." := by
  unfold segOk at h
  simp only [Bool.and_eq_true, bne_iff_ne] at h
  exact ⟨h.1.1.1, h.1.1.2, h.1.2, h.2⟩

theorem renderPath_child_ne (pre : List String) {nm : String} (h : segOk nm = true) :
    renderPath (pre ++ [nm]) ≠ "" ∧ renderPath (pre ++ [nm]) ≠ "." := by
  obtain ⟨h1, _, h3, _⟩ := segOk_spec h
  cases pre with
  | nil => exact ⟨h1, h3⟩
  | cons p rest =>
    have hm : '/' ∈ (renderPath ((p :: rest) ++ [nm])).data := by
      rw [data_render_append _ _ (by simp)]
      simp
    constructor
    · intro heq
      rw [heq, empty_data] at hm
      cases hm
    · intro heq
      rw [heq, dot_data] at hm
      simp at hm

theorem renderPath_head_ne_slash :
    ∀ segs : List String, segs ≠ [] → (∀ s ∈ segs, segOk s = true) →
      (renderPath segs).data.head? ≠ some '/' := by
  intro segs hne hok
  cases segs with
  | nil => exact absurd rfl hne
  | cons s₀ rest =>
    obtain ⟨h1, h2, _, _⟩ := segOk_spec (hok s₀ (by simp))
    have h0 : s₀.data ≠ [] := fun hd => h1 (string_eq_empty_of_data hd)
    have hh : (renderPath (s₀ :: rest)).data.head? = s₀.data.head? := by
      cases rest with
      | nil => rfl
      | cons s₁ r =>
        rw [data_render_cons_cons]
        cases hcase : s₀.data with
        | nil => exact absurd hcase h0
        | cons a t => rfl
    rw [hh]
    cases hcase : s₀.data with
    | nil => exact absurd hcase h0
    | cons a t =>
      have ha : a ∈ s₀.data := by rw [hcase]; exact List.mem_cons_self a t
      have hne2 := (List.all_eq_true.mp h2) a ha
      intro heq
      injection heq with heq2
      rw [heq2] at hne2
      simp at hne2

theorem walk_paths_nonroot : ∀ nd, childrenOk nd = true → ∀ ig pre,
    List.Forall (EntryAll fun e => e.path ≠ "" ∧ e.path ≠ ".") (walkEntries ig pre nd) := by
  intro nd
  induction nd using FSNode.recMem with
  | hf n => intro _ ig pre; rw [walkEntries_file]; trivial
  | hd n cs ih =>
    intro hok ig pre
    simp only [childrenOk] at hok
    rw [walk_dir_eq, List.forall_iff_forall_mem]
    intro e he
    obtain ⟨c, hc, rfl⟩ := List.mem_map.mp he
    obtain ⟨hcs, hkeep⟩ := mem_of_mem_filter_sort hc
    obtain ⟨hseg, hchild⟩ := childrenListOk_mem hok c hcs
    refine EntryAll.intro _ ?_ ?_
    · rw [mkEnt_path]
      exact renderPath_child_ne pre hseg
    · intro cs' hcs' c' hc'
      by_cases hdir : isDirB c
      · simp only [mkEnt, hdir, if_true, Entry.children_mk, Option.some.injEq] at hcs'
        subst hcs'
        have h2 := ih c hcs hchild ig (pre ++ [fsName c])
        rw [List.forall_iff_forall_mem] at h2
        exact h2 c' hc'
      · simp [mkEnt, hdir] at hcs'

theorem walk_ignored_free : ∀ nd ig (pre : List String),
    List.Forall (EntryAll fun e =>
      ∃ segs, e.path = renderPath (pre ++ segs) ∧ segs ≠ [] ∧ ∀ s ∈ segs, s ∉ ig)
      (walkEntries ig pre nd) := by
  intro nd
  induction nd using FSNode.recMem with
  | hf n => intro ig pre; rw [walkEntries_file]; trivial
  | hd n cs ih =>
    intro ig pre
    rw [walk_dir_eq, List.forall_iff_forall_mem]
    intro e he
    obtain ⟨c, hc, rfl⟩ := List.mem_map.mp he
    obtain ⟨hcs, hkeep⟩ := mem_of_mem_filter_sort hc
    refine EntryAll.intro _ ⟨[fsName c], by rw [mkEnt_path], by simp, ?_⟩ ?_
    · intro s hs
      rw [List.mem_singleton] at hs
      subst hs
      exact keep_not_ignored hkeep
    · intro cs' hcs' c' hc'
      by_cases hdir : isDirB c
      · simp only [mkEnt, hdir, if_true, Entry.children_mk, Option.some.injEq] at hcs'
        subst hcs'
        have h2 := ih c hcs ig (pre ++ [fsName c])
        rw [List.forall_iff_forall_mem] at h2
        refine EntryAll_mono ?_ (h2 c' hc')
        rintro e ⟨segs, hpath, hne, hnin⟩
        refine ⟨fsName c :: segs, by rw [hpath, List.append_assoc]; rfl, by simp, ?_⟩
        intro s hs
        rcases List.mem_cons.mp hs with rfl | hs2
        · exact keep_not_ignored hkeep
        · exact hnin s hs2
      · simp [mkEnt, hdir] at hcs'

/-- Every path in the output is a nonempty chain of usable segments starting
at the scan root, rendered with forward slashes, and does not begin with a
slash. -/
def goodSegs (e : Entry) : Prop :=
  ∃ segs, segs ≠ [] ∧ (∀ s ∈ segs, segOk s = true) ∧
    e.path = renderPath segs ∧ e.path.data.head? ≠ some '/'

theorem walk_paths_good : ∀ nd, childrenOk nd = true → ∀ ig (pre : List String),
    (∀ s ∈ pre, segOk s = true) →
    List.Forall (EntryAll goodSegs) (walkEntries ig pre nd) := by
  intro nd
  induction nd using FSNode.recMem with
  | hf n => intro _ ig pre _; rw [walkEntries_file]; trivial
  | hd n cs ih =>
    intro hok ig pre hpre
    simp only [childrenOk] at hok
    rw [walk_dir_eq, List.forall_iff_forall_mem]
    intro e he
    obtain ⟨c, hc, rfl⟩ := List.mem_map.mp he
    obtain ⟨hcs, hkeep⟩ := mem_of_mem_filter_sort hc
    obtain ⟨hseg, hchild⟩ := childrenListOk_mem hok c hcs
    have hallsegs : ∀ s ∈ pre ++ [fsName c], segOk s = true := by
      intro s hs
      rcases List.mem_append.mp hs with hs2 | hs2
      · exact hpre s hs2
      · rw [List.mem_singleton] at hs2
        subst hs2
        exact hseg
    refine EntryAll.intro _ ?_ ?_
    · refine ⟨pre ++ [fsName c], by simp, hallsegs, mkEnt_path ig pre c, ?_⟩
      rw [mkEnt_path]
      exact renderPath_head_ne_slash _ (by simp) hallsegs
    · intro cs' hcs' c' hc'
      by_cases hdir : isDirB c
      · simp only [mkEnt, hdir, if_true, Entry.children_mk, Option.some.injEq] at hcs'
        subst hcs'
        have h2 := ih c hcs hchild ig (pre ++ [fsName c]) hallsegs
        rw [List.forall_iff_forall_mem] at h2
        exact h2 c' hc'
      · simp [mkEnt, hdir] at hcs'

theorem walk_shape : ∀ nd ig (pre : List String),
    List.Forall (EntryAll fun e =>
      (e.type = EntryType.dir → e.extension = none ∧ ∃ cs, e.children = some cs) ∧
      (e.type = EntryType.file → e.children = none ∧ ∃ x, e.extension = some x))
      (walkEntries ig pre nd) := by
  intro nd
  induction nd using FSNode.recMem with
  | hf n => intro ig pre; rw [walkEntries_file]; trivial
  | hd n cs ih =>
    intro ig pre
    rw [walk_dir_eq, List.forall_iff_forall_mem]
    intro e he
    obtain ⟨c, hc, rfl⟩ := List.mem_map.mp he
    obtain ⟨hcs, hkeep⟩ := mem_of_mem_filter_sort hc
    refine EntryAll.intro _ ?_ ?_
    · by_cases hdir : isDirB c
      · simp [mkEnt, hdir]
      · simp [mkEnt, hdir]
    · intro cs' hcs' c' hc'
      by_cases hdir : isDirB c
      · simp only [mkEnt, hdir, if_true, Entry.children_mk, Option.some.injEq] at hcs'
        subst hcs'
        have h2 := ih c hcs ig (pre ++ [fsName c])
        rw [List.forall_iff_forall_mem] at h2
        exact h2 c' hc'
      · simp [mkEnt, hdir] at hcs'

/-- Hexadecimal digit used by the JSON escaping of control characters. -/
def hexDigit (n : Nat) : Char :=
  if n < 10 then Char.ofNat (48 + n) else Char.ofNat (87 + n)

/-- JSON escaping of one character with ensure_ascii=False: only the quote,
the backslash and control characters are escaped; everything else is
emitted literally. -/
def escapeChar (c : Char) : String :=
  if c = '"' then "\\\""
  else if c = '\\' then "\\\\"
  else if c = '\n' then "\\n"
  else if c = '\t' then "\\t"
  else if c = '\r' then "\\r"
  else if c.val < 32 then
    "\\u00" ++ String.mk [hexDigit (c.val.toNat / 16), hexDigit (c.val.toNat % 16)]
  else String.mk [c]

def jsonStr (s : String) : String :=
  "\"" ++ String.join (s.data.map escapeChar) ++ "\""

def typeStr : EntryType → String
  | .dir => "dir"
  | .file => "file"

def indentStr (k : Nat) : String := String.mk (List.replicate (2 * k) ' ')

mutual

/-- Models the serialization of one entry dict by json.dump(tree, f,
indent=2, ensure_ascii=False) (line 102), with the stable insertion order
of the dict keys of lines 61-67 and 73-78. -/
def renderEntry : Nat → Entry → String
  | lvl, .mk p t x copt =>
    "\x7b\n" ++ indentStr (lvl + 1) ++ jsonStr "path" ++ ": " ++ jsonStr p ++ ",\n"
      ++ indentStr (lvl + 1) ++ jsonStr "type" ++ ": " ++ jsonStr (typeStr t)
      ++ (match copt with
          | some cs => ",\n" ++ indentStr (lvl + 1) ++ jsonStr "children" ++ ": "
              ++ renderEntryList (lvl + 1) cs
          | none =>
            match x with
            | some e => ",\n" ++ indentStr (lvl + 1) ++ jsonStr "extension" ++ ": " ++ jsonStr e
            | none => "")
      ++ "\n" ++ indentStr lvl ++ "\x7d"
termination_by lvl e => sizeOf e
decreasing_by
  all_goals simp
  all_goals omega

/-- Serialized form of a list of entries: the whole output document when
applied at level 0 to the result of the scan. -/
def renderEntryList : Nat → List Entry → String
  | _, [] => "[]"
  | lvl, e :: rest =>
    "[\n" ++ indentStr (lvl + 1) ++ renderEntry (lvl + 1) e
      ++ renderMore (lvl + 1) rest ++ "\n" ++ indentStr lvl ++ "]"
termination_by lvl l => sizeOf l
decreasing_by
  all_goals simp
  all_goals omega

def renderMore : Nat → List Entry → String
  | _, [] => ""
  | lvl, e :: rest => ",\n" ++ indentStr lvl ++ renderEntry lvl e ++ renderMore lvl rest
termination_by lvl l => sizeOf l
decreasing_by
  all_goals simp
  all_goals omega

end

/-- Ordering of two result entries as the spec states it: a directory comes
before a file, and entries of equal kind are ordered by the lowercased bare
filename (the final path segment). -/
def entryLe (e₁ e₂ : Entry) : Prop :=
  (e₁.type = EntryType.dir ∧ e₂.type = EntryType.file) ∨
    (e₁.type = e₂.type ∧ pyLower (lastSeg e₁.path) ≤ pyLower (lastSeg e₂.path))

/-- C1: for every directory level produced by the walk, the surviving
children are ordered by the composite key (is_file, lowercase name)
ascending: every dir entry precedes every file entry of the same level,
and entries of equal kind appear in ascending order of their bare name
lowercased.  The hypothesis states that the enumerated names contain no
slash, as filesystem names cannot. -/
theorem c1_children_ordering (ig pre : List String) (n : String) (cs : List FSNode)
    (hn : cs.all (fun c => (fsName c).data.all (fun ch => ch != '/')) = true) :
    List.Pairwise entryLe (walkEntries ig pre (.dir n cs)) := by
  rw [walk_dir_eq, List.pairwise_map]
  have hsorted : List.Pairwise sortRel (sortChildren cs) :=
    List.sorted_insertionSort sortRel cs
  have hfil : List.Pairwise sortRel ((sortChildren cs).filter (keep ig)) :=
    List.Pairwise.sublist (List.filter_sublist _) hsorted
  refine List.Pairwise.imp_of_mem ?_ hfil
  intro a b ha hb hab
  have hsa : (fsName a).data.all (fun ch => ch != '/') = true :=
    (List.all_eq_true.mp hn) a (mem_of_mem_filter_sort ha).1
  have hsb : (fsName b).data.all (fun ch => ch != '/') = true :=
    (List.all_eq_true.mp hn) b (mem_of_mem_filter_sort hb).1
  rcases hab with hlt | ⟨heq, hle⟩
  · left
    rw [Bool.lt_iff] at hlt
    obtain ⟨ha1, hb1⟩ := hlt
    have ha2 : isDirB a = true := by simpa using ha1
    have hb2 : isDirB b = false := by simpa using hb1
    rw [mkEnt_type, mkEnt_type, ha2, hb2]
    simp
  · right
    constructor
    · rw [mkEnt_type, mkEnt_type, Bool.not_inj heq]
    · rw [mkEnt_path, mkEnt_path, lastSeg_render _ _ hsa, lastSeg_render _ _ hsb]
      exact hle

theorem c1_children_ordering_witness :
    List.Pairwise entryLe (walkEntries defaultIgnore []
      (.dir "root" [.file "A.txt", .dir "z" [], .dir "a" [.file "b.txt"]])) :=
  c1_children_ordering defaultIgnore [] "root" _ (by decide)

/-- C2: the walk of a directory yields exactly one entry per non-ignored,
non-pyc child (the entry paths are a permutation of the kept children's
rendered paths, at every level of the recursion), and no entry anywhere in
the result stands for the walked root itself: every path differs from the
empty relative path and from the relative self path ".". -/
theorem c2_exact_children :
    (∀ (ig pre : List String) (n : String) (cs : List FSNode),
      ((walkEntries ig pre (.dir n cs)).map Entry.path).Perm
        ((cs.filter (keep ig)).map (fun c => renderPath (pre ++ [fsName c])))) ∧
    (∀ (nd : FSNode) (ig : Option (List String)), childrenOk nd = true →
      List.Forall (EntryAll fun e => e.path ≠ "" ∧ e.path ≠ ".") (walk_dir nd ig)) := by
  constructor
  · intro ig pre n cs
    rw [walk_dir_eq, List.map_map]
    have hmapeq : List.map (Entry.path ∘ mkEnt ig pre) ((sortChildren cs).filter (keep ig))
        = List.map (fun c => renderPath (pre ++ [fsName c])) ((sortChildren cs).filter (keep ig)) :=
      List.map_congr_left (fun a _ => mkEnt_path ig pre a)
    rw [hmapeq]
    exact List.Perm.map _ (List.Perm.filter _ (List.perm_insertionSort sortRel cs))
  · intro nd ig hok
    exact walk_paths_nonroot nd hok _ []

theorem c2_exact_children_witness :
    List.Forall (EntryAll fun e => e.path ≠ "" ∧ e.path ≠ ".")
      (walk_dir (FSNode.dir "root" [.file "A.txt", .dir "a" [.file "b.txt"]]) none) :=
  c2_exact_children.2 _ none (by decide)

/-- C3: a child whose bare filename is in the ignore set is skipped
entirely, at every directory level: every entry at every depth of the
result has a path made of segments below the walked directory none of
which is an ignored name — so neither the ignored child nor any of its
descendants is ever represented. -/
theorem c3_ignored_skipped : ∀ (nd : FSNode) (ig pre : List String),
    List.Forall (EntryAll fun e =>
      ∃ segs, e.path = renderPath (pre ++ segs) ∧ segs ≠ [] ∧ ∀ s ∈ segs, s ∉ ig)
      (walkEntries ig pre nd) :=
  walk_ignored_free

theorem c3_ignored_skipped_witness :
    List.Forall (EntryAll fun e =>
      ∃ segs, e.path = renderPath ([] ++ segs) ∧ segs ≠ [] ∧
        ∀ s ∈ segs, s ∉ ["__pycache__", ".DS_Store"])
      (walkEntries ["__pycache__", ".DS_Store"] []
        (.dir "root" [.dir "__pycache__" [.file "q.txt"], .file "a.txt"])) :=
  c3_ignored_skipped _ _ _

/-- C4: an input root that does not exist or is not a directory fails the
validation immediately with the invalid-root error and produces no output;
an existing directory root is passed to walk_dir with the default ignore
set.  The single error value models the ValueError raised at line 92,
which signals exactly the not-a-directory condition. -/
theorem c4_root_validation :
    scan none = .error .invalidRoot ∧
    (∀ nd, isDirB nd = false → scan (some nd) = .error .invalidRoot) ∧
    (∀ nd, isDirB nd = true → scan (some nd) = .ok (walkEntries defaultIgnore [] nd)) := by
  refine ⟨rfl, ?_, ?_⟩
  · intro nd h
    simp [scan, h]
  · intro nd h
    simp [scan, h, walk_dir, resolveIgnore]

theorem c4_root_validation_witness :
    scan (some (FSNode.file "x")) = .error .invalidRoot ∧
    scan (some (FSNode.dir "r" [.file "a.txt"])) =
      .ok (walkEntries defaultIgnore [] (FSNode.dir "r" [.file "a.txt"])) :=
  ⟨c4_root_validation.2.1 _ rfl, c4_root_validation.2.2 _ rfl⟩

/-- C5: a file child whose suffix is exactly .pyc gets no entry, whatever
the ignore set is: no entry of the produced level carries its path.  The
hypotheses fix a file child with suffix .pyc among the enumerated children,
whose names are pairwise distinct as in a real directory. -/
theorem c5_pyc_skipped (ig pre : List String) (n : String) (cs : List FSNode) (c : FSNode)
    (hmem : c ∈ cs) (hfile : isDirB c = false) (hpyc : pySuffix (fsName c) = ".pyc")
    (hnodup : (cs.map fsName).Nodup) :
    List.Forall (fun e => e.path ≠ renderPath (pre ++ [fsName c]))
      (walkEntries ig pre (.dir n cs)) := by
  rw [walk_dir_eq, List.forall_iff_forall_mem]
  intro e he
  obtain ⟨c', hc', rfl⟩ := List.mem_map.mp he
  obtain ⟨hcs', hkeep'⟩ := mem_of_mem_filter_sort hc'
  rw [mkEnt_path]
  intro heq
  have hname : fsName c' = fsName c := renderPath_last_inj pre heq
  have hcc : c' = c := List.inj_on_of_nodup_map hnodup hcs' hmem hname
  subst hcc
  unfold keep at hkeep'
  by_cases hig : fsName c' ∈ ig
  · simp [hig] at hkeep'
  · simp [hig, hfile, hpyc] at hkeep'

theorem c5_pyc_skipped_witness :
    List.Forall (fun e => e.path ≠ renderPath ([] ++ [fsName (FSNode.file "a.pyc")]))
      (walkEntries [] [] (.dir "r" [.file "a.pyc", .file "b.txt"])) :=
  c5_pyc_skipped [] [] "r" _ (FSNode.file "a.pyc")
    (List.mem_cons_self _ _) rfl (by decide) (by decide)

/-- C6: every file entry of a directory level carries the extension of its
source child, computed as the pathlib suffix of the bare filename: the
final dot-suffix including the leading dot, or the empty string when there
is none; in particular notes.tar.gz yields ".gz" and README yields "". -/
theorem c6_extension_field :
    (∀ (ig pre : List String) (n : String) (cs : List FSNode),
      List.Forall (fun e => e.type = EntryType.file →
        ∃ c, c ∈ cs ∧ isDirB c = false ∧ e.path = renderPath (pre ++ [fsName c]) ∧
          e.extension = some (pySuffix (fsName c)))
        (walkEntries ig pre (.dir n cs))) ∧
    pySuffix "notes.tar.gz" = ".gz" ∧ pySuffix "README" = "" := by
  refine ⟨?_, by decide, by decide⟩
  intro ig pre n cs
  rw [walk_dir_eq, List.forall_iff_forall_mem]
  intro e he
  obtain ⟨c, hc, rfl⟩ := List.mem_map.mp he
  obtain ⟨hcs, hkeep⟩ := mem_of_mem_filter_sort hc
  intro htype
  by_cases hdir : isDirB c
  · rw [mkEnt_type, hdir] at htype
    simp at htype
  · refine ⟨c, hcs, by simpa using hdir, mkEnt_path ig pre c, ?_⟩
    simp [mkEnt, hdir]

theorem c6_extension_field_witness :
    List.Forall (fun e => e.type = EntryType.file →
      ∃ c, c ∈ [FSNode.file "notes.tar.gz", FSNode.file "README"] ∧ isDirB c = false ∧
        e.path = renderPath ([] ++ [fsName c]) ∧
        e.extension = some (pySuffix (fsName c)))
      (walkEntries defaultIgnore [] (.dir "r" [.file "notes.tar.gz", .file "README"])) :=
  c6_extension_field.1 defaultIgnore [] "r" _

/-- C7: every path of every entry at every depth of the result is the
slash-joined render of a nonempty chain of usable segments starting at the
scan root passed at the top level, never begins with a slash (never
absolute), and never contains a ".." segment (segOk rules it out); moreover
every entry of any recursion level extends the prefix reaching back to the
original root, not the current level, by exactly one segment. -/
theorem c7_paths_relative :
    (∀ (nd : FSNode) (ig : Option (List String)), childrenOk nd = true →
      List.Forall (EntryAll goodSegs) (walk_dir nd ig)) ∧
    (∀ (ig pre : List String) (n : String) (cs : List FSNode),
      List.Forall (fun e => ∃ nm, e.path = renderPath (pre ++ [nm]))
        (walkEntries ig pre (.dir n cs))) := by
  constructor
  · intro nd ig hok
    refine walk_paths_good nd hok _ [] ?_
    intro s hs
    cases hs
  · intro ig pre n cs
    rw [walk_dir_eq, List.forall_iff_forall_mem]
    intro e he
    obtain ⟨c, hc, rfl⟩ := List.mem_map.mp he
    exact ⟨fsName c, mkEnt_path ig pre c⟩

theorem c7_paths_relative_witness :
    List.Forall (EntryAll goodSegs)
      (walk_dir (FSNode.dir "r" [.dir "a" [.file "b.txt"], .file "A.txt"]) none) :=
  c7_paths_relative.1 _ none (by decide)

/-- C8: every entry at every depth is well-shaped: a dir entry has a
children field (some list) and no extension field, and a file entry has an
extension field and no children field. -/
theorem c8_entry_shape : ∀ (ig pre : List String) (nd : FSNode),
    List.Forall (EntryAll fun e =>
      (e.type = EntryType.dir → e.extension = none ∧ ∃ cs, e.children = some cs) ∧
      (e.type = EntryType.file → e.children = none ∧ ∃ x, e.extension = some x))
      (walkEntries ig pre nd) :=
  fun ig pre nd => walk_shape nd ig pre

theorem c8_entry_shape_witness :
    List.Forall (EntryAll fun e =>
      (e.type = EntryType.dir → e.extension = none ∧ ∃ cs, e.children = some cs) ∧
      (e.type = EntryType.file → e.children = none ∧ ∃ x, e.extension = some x))
      (walkEntries defaultIgnore [] (.dir "r" [.dir "a" [], .file "b.txt"])) :=
  c8_entry_shape defaultIgnore [] _

/-- C9: the traversal and the serialization are deterministic functions of
the filesystem state: two runs over the same unmodified tree produce the
same serialized bytes. -/
theorem c9_deterministic : ∀ r₁ r₂ : Option FSNode, r₁ = r₂ →
    (scan r₁).map (renderEntryList 0) = (scan r₂).map (renderEntryList 0) := by
  intro r₁ r₂ h
  rw [h]

theorem c9_deterministic_witness :
    (scan (some (FSNode.dir "r" [.file "a.txt"]))).map (renderEntryList 0) =
      (scan (some (FSNode.dir "r" [.file "a.txt"]))).map (renderEntryList 0) :=
  c9_deterministic _ _ rfl

/-- C10: walking with an empty ignore set is the same as walking with the
default ignore set, because the guard of line 51 replaces any falsy ignore
argument (None or the empty set) by the default; so an empty ignore set
does not disable filtering. -/
theorem c10_empty_ignore_default : ∀ nd : FSNode,
    walk_dir nd (some []) = walk_dir nd (some defaultIgnore) ∧
    walk_dir nd none = walk_dir nd (some defaultIgnore) :=
  fun _ => ⟨rfl, rfl⟩

theorem c10_empty_ignore_default_witness :
    walk_dir (FSNode.dir "r" [.dir "__pycache__" []]) (some []) =
      walk_dir (FSNode.dir "r" [.dir "__pycache__" []]) (some defaultIgnore) :=
  (c10_empty_ignore_default _).1
